import Mathlib

/-!
Verification of the `chrom` colour library.

The library defines a single value type `Colour(pub u32)` wrapping an
unsigned 32-bit integer, with named palette constants, RGB accessors,
raw-integer arithmetic operators (wrapping on overflow, as with
release-mode unsigned arithmetic), conversions to and from `u32` and
`(u8, u8, u8)`, and a `#`-prefixed lowercase hexadecimal display form.

Machine integers are embedded as bounded naturals: `u32` as `Fin (2 ^ 32)`
and `u8` as `Fin 256`; wrapping arithmetic is explicit `% 2 ^ 32`.
-/

/-- The `u8` machine type: a natural number below 256. -/
abbrev Byte := Fin 256

/-- The `u32` machine type: a natural number below 2^32. -/
abbrev U32 := Fin (2 ^ 32)

/-- `pub struct Colour(pub u32)` — a colour is a wrapped 32-bit integer.
Derived `PartialEq`/`Eq` compare the wrapped integer, which `DecidableEq`
on the single field mirrors. -/
structure Colour where
  u : U32
deriving DecidableEq

namespace Colour

/-- Helper to build a concrete colour from a numeral (the Rust
`Colour(literal)` constructor applied to a `u32` literal). -/
def mkc (n : Nat) : Colour :=
  ⟨⟨n % 2 ^ 32, Nat.mod_lt _ (by decide)⟩⟩

/-- Helper to build a concrete byte from a numeral. -/
def mkb (n : Nat) : Byte :=
  ⟨n % 256, Nat.mod_lt _ (by decide)⟩

def WHITE : Colour := mkc 0xffffff
def BLACK : Colour := mkc 0x000000
def AQUA : Colour := mkc 0x1ABC9C
def GREEN : Colour := mkc 0x57F287
def BLUE : Colour := mkc 0x3498DB
def YELLOW : Colour := mkc 0xFEE75C
def PURPLE : Colour := mkc 0x9B59B6
def GOLD : Colour := mkc 0xF1C40F
def ORANGE : Colour := mkc 0xE67E22
def RED : Colour := mkc 0xED4245
def GREY : Colour := mkc 0x95A5A6
def NAVY : Colour := mkc 0x34495E
def DARK_AQUA : Colour := mkc 0x11806A
def DARK_GREEN : Colour := mkc 0x1F8B4C
def DARK_BLUE : Colour := mkc 0x206694
def DARK_PURPLE : Colour := mkc 0x71368A
def DARK_GOLD : Colour := mkc 0xC27C0E
def DARK_ORANGE : Colour := mkc 0xA84300
def DARK_RED : Colour := mkc 0x992D22
def DARK_GREY : Colour := mkc 0x979C9F
def DARK_NAVY : Colour := mkc 0x2C3E50
def LIGHT_GREY : Colour := mkc 0xBCC0C0

/-- The packed value produced by `from_rgb`:
`(red as u32) << 16 | (green as u32) << 8 | blue as u32`. -/
def from_rgbVal (red green blue : Nat) : Nat :=
  red <<< 16 ||| green <<< 8 ||| blue

/-- `Colour::from_rgb(red, green, blue)`. The bound proof records that the
packed value fits in 32 bits (it in fact fits in 24, see the invariants). -/
def from_rgb (red green blue : Byte) : Colour :=
  ⟨⟨from_rgbVal red.val green.val blue.val, by
    have hr := red.isLt
    have hg := green.isLt
    unfold from_rgbVal
    apply Nat.lt_of_lt_of_le (m := 2 ^ 24) _ (by norm_num)
    apply Nat.or_lt_two_pow
    · apply Nat.or_lt_two_pow
      · rw [Nat.shiftLeft_eq]
        norm_num
        omega
      · rw [Nat.shiftLeft_eq]
        norm_num
        omega
    · exact Nat.lt_of_lt_of_le blue.isLt (by norm_num)⟩⟩

/-- `Colour::red`: `((self.0 >> 16) & 255) as u8` (the cast is lossless,
which the bound proof records). -/
def red (c : Colour) : Byte :=
  ⟨(c.u.val >>> 16) &&& 255, Nat.lt_succ_of_le Nat.and_le_right⟩

/-- `Colour::green`: `((self.0 >> 8) & 255) as u8`. -/
def green (c : Colour) : Byte :=
  ⟨(c.u.val >>> 8) &&& 255, Nat.lt_succ_of_le Nat.and_le_right⟩

/-- `Colour::blue`: `(self.0 & 255) as u8`. -/
def blue (c : Colour) : Byte :=
  ⟨c.u.val &&& 255, Nat.lt_succ_of_le Nat.and_le_right⟩

/-- `impl Add for Colour`: `Self(*self + *rhs)` — `u32` addition,
wrapping on overflow. -/
def add (a b : Colour) : Colour :=
  ⟨⟨(a.u.val + b.u.val) % 2 ^ 32, Nat.mod_lt _ (by decide)⟩⟩

/-- `impl Sub for Colour`: `Self(*self - *rhs)` — `u32` subtraction,
wrapping on underflow (two's-complement: `a - b ≡ a + (2^32 - b)`). -/
def sub (a b : Colour) : Colour :=
  ⟨⟨(a.u.val + (2 ^ 32 - b.u.val)) % 2 ^ 32, Nat.mod_lt _ (by decide)⟩⟩

/-- `impl Mul for Colour`: `Self(*self * *rhs)` — `u32` multiplication,
wrapping on overflow. -/
def mul (a b : Colour) : Colour :=
  ⟨⟨(a.u.val * b.u.val) % 2 ^ 32, Nat.mod_lt _ (by decide)⟩⟩

/-- `impl Div for Colour`: `Self(*self / *rhs)` — `u32` division, which
faults (panics) when the divisor is zero; modelled as `none`. For a
nonzero divisor it is the truncated quotient, which never overflows. -/
def div (a b : Colour) : Option Colour :=
  if b.u.val = 0 then none
  else some ⟨⟨a.u.val / b.u.val, Nat.lt_of_le_of_lt (Nat.div_le_self _ _) a.u.isLt⟩⟩

/-- `impl AddAssign for Colour`: `*self = *self + rhs`; the resulting
value of the receiver. -/
def add_assign (a b : Colour) : Colour := add a b

/-- `impl SubAssign for Colour`: `*self = *self - rhs`. -/
def sub_assign (a b : Colour) : Colour := sub a b

/-- `impl MulAssign for Colour`: `*self = *self * rhs`. -/
def mul_assign (a b : Colour) : Colour := mul a b

/-- `impl DivAssign for Colour`: `*self = *self / rhs`; faults when the
divisor is zero, otherwise the receiver holds the quotient. -/
def div_assign (a b : Colour) : Option Colour := div a b

/-- `impl From<u32> for Colour`: identity wrap, no validation. -/
def fromU32 (v : U32) : Colour := ⟨v⟩

/-- `impl From<Colour> for u32`: identity unwrap (`*colour`). -/
def toU32 (c : Colour) : U32 := c.u

/-- `impl From<(u8, u8, u8)> for Colour`: delegates to `from_rgb`. -/
def fromTuple (t : Byte × Byte × Byte) : Colour :=
  from_rgb t.1 t.2.1 t.2.2

/-- `impl From<Colour> for (u8, u8, u8)`: `(red(), green(), blue())`. -/
def toTuple (c : Colour) : Byte × Byte × Byte :=
  (c.red, c.green, c.blue)

/-- Strict order from derived `Ord`/`PartialOrd`: numeric comparison of
the wrapped integer. -/
def lt (a b : Colour) : Prop := a.u.val < b.u.val

/-- Non-strict order from derived `Ord`/`PartialOrd`. -/
def le (a b : Colour) : Prop := a.u.val ≤ b.u.val

instance : DecidableRel lt := fun a b => Nat.decLt a.u.val b.u.val

instance : DecidableRel le := fun a b => Nat.decLe a.u.val b.u.val

/-- Derived `Default`: the all-zero field, `Colour(0)`. -/
def defaultColour : Colour := mkc 0

/-- Lowercase hexadecimal digit characters, as produced by the host
formatter for the `x` format specifier: digit values 0–9 map to ASCII
codes 48–57 and values 10–15 to ASCII codes 97–102 (lowercase letters). -/
def hexChar (n : Nat) : Char :=
  if n < 10 then Char.ofNat (48 + n) else Char.ofNat (87 + n)

/-- Numeric value of a hexadecimal digit character (decoder used to state
correctness of the formatter). -/
def hexVal (c : Char) : Nat :=
  if 97 ≤ c.toNat then c.toNat - 87 else c.toNat - 48

/-- The sixteen lowercase hexadecimal digit characters. -/
def hexAlphabet : List Char :=
  "0123456789abcdef".toList

/-- Fuelled most-significant-first hexadecimal digit expansion; with fuel
at least `n` it is the standard base-16 expansion of `n` (empty for 0). -/
def hexCharsAux : Nat → Nat → List Char
  | 0, _ => []
  | fuel + 1, n =>
    if n = 0 then []
    else hexCharsAux fuel (n / 16) ++ [hexChar (n % 16)]

/-- Modelled from the host formatter: Rust's `LowerHex` for `u32` prints
the minimal lowercase hexadecimal digits, with `0` printed as `"0"`. -/
def toHex (n : Nat) : String :=
  if n = 0 then "0" else String.mk (hexCharsAux n n)

/-- `impl Display for Colour`: `#` followed by the `x`-formatted wrapped
value (the full 32-bit value, not masked to 24 bits). -/
def display (c : Colour) : String :=
  "#" ++ toHex c.u.val

/-- Decode a most-significant-first list of hexadecimal digit characters. -/
def decodeHex (ds : List Char) : Nat :=
  ds.foldl (fun a d => 16 * a + hexVal d) 0

end Colour

namespace Colour

/-! ### Helper lemmas shared by the claim theorems -/

theorem val_inj {a b : Colour} : a = b ↔ a.u.val = b.u.val := by
  constructor
  · intro h
    rw [h]
  · intro h
    cases a with
    | mk ua =>
      cases b with
      | mk ub => exact congrArg Colour.mk (Fin.ext h)

theorem shiftRight_lor (x y n : Nat) : (x ||| y) >>> n = x >>> n ||| y >>> n := by
  apply Nat.eq_of_testBit_eq
  intro i
  simp [Nat.testBit_shiftRight, Nat.testBit_or]

/-- Bitwise-or is addition when the low `n` bits of `x` are clear and `y`
fits in `n` bits. -/
theorem lor_eq_add {x y n : Nat} (hx : x % 2 ^ n = 0) (hy : y < 2 ^ n) :
    x ||| y = x + y := by
  have hmod : (x ||| y) % 2 ^ n = y := by
    apply Nat.eq_of_testBit_eq
    intro i
    simp only [Nat.testBit_mod_two_pow, Nat.testBit_or]
    by_cases hi : i < n
    · have hxbit : x.testBit i = false := by
        have h := Nat.testBit_mod_two_pow x n i
        rw [hx, Nat.zero_testBit] at h
        have h2 := h.symm
        rw [decide_eq_true hi, Bool.true_and] at h2
        exact h2
      simp [hi, hxbit]
    · have hybit : y.testBit i = false :=
        Nat.testBit_lt_two_pow
          (Nat.lt_of_lt_of_le hy (Nat.pow_le_pow_right (by omega) (by omega)))
      simp [hi, hybit]
  have hdiv : (x ||| y) / 2 ^ n = x / 2 ^ n := by
    have h1 := shiftRight_lor x y n
    rw [Nat.shiftRight_eq_div_pow, Nat.shiftRight_eq_div_pow,
      Nat.shiftRight_eq_div_pow] at h1
    rw [h1, Nat.div_eq_of_lt hy, Nat.or_zero]
  have hx2 : 2 ^ n * (x / 2 ^ n) = x := by
    have h := Nat.div_add_mod x (2 ^ n)
    rwa [hx, Nat.add_zero] at h
  calc x ||| y = 2 ^ n * ((x ||| y) / 2 ^ n) + (x ||| y) % 2 ^ n :=
        (Nat.div_add_mod _ _).symm
    _ = 2 ^ n * (x / 2 ^ n) + y := by rw [hdiv, hmod]
    _ = x + y := by rw [hx2]

/-- The packed `from_rgb` value in plain arithmetic. -/
theorem from_rgbVal_eq {r g b : Nat} (_hr : r < 256) (hg : g < 256) (hb : b < 256) :
    from_rgbVal r g b = r * 65536 + g * 256 + b := by
  unfold from_rgbVal
  rw [Nat.shiftLeft_eq, Nat.shiftLeft_eq]
  norm_num
  have h1 : r * 65536 ||| g * 256 = r * 65536 + g * 256 := by
    apply lor_eq_add (n := 16)
    · omega
    · omega
  rw [h1]
  apply lor_eq_add (n := 8)
  · omega
  · omega

theorem red_val (c : Colour) : (red c).val = c.u.val / 65536 % 256 := by
  show (c.u.val >>> 16) &&& 255 = _
  have h255 : (255 : Nat) = 2 ^ 8 - 1 := by norm_num
  rw [h255, Nat.and_pow_two_sub_one_eq_mod, Nat.shiftRight_eq_div_pow]

theorem green_val (c : Colour) : (green c).val = c.u.val / 256 % 256 := by
  show (c.u.val >>> 8) &&& 255 = _
  have h255 : (255 : Nat) = 2 ^ 8 - 1 := by norm_num
  rw [h255, Nat.and_pow_two_sub_one_eq_mod, Nat.shiftRight_eq_div_pow]

theorem blue_val (c : Colour) : (blue c).val = c.u.val % 256 := by
  show c.u.val &&& 255 = _
  have h255 : (255 : Nat) = 2 ^ 8 - 1 := by norm_num
  rw [h255, Nat.and_pow_two_sub_one_eq_mod]

theorem from_rgb_val (r g b : Byte) :
    (from_rgb r g b).u.val = r.val * 65536 + g.val * 256 + b.val :=
  from_rgbVal_eq r.isLt g.isLt b.isLt

theorem red_from_rgb (r g b : Byte) : red (from_rgb r g b) = r := by
  apply Fin.ext
  rw [red_val, from_rgb_val]
  have hr := r.isLt
  have hg := g.isLt
  have hb := b.isLt
  omega

theorem green_from_rgb (r g b : Byte) : green (from_rgb r g b) = g := by
  apply Fin.ext
  rw [green_val, from_rgb_val]
  have hr := r.isLt
  have hg := g.isLt
  have hb := b.isLt
  omega

theorem blue_from_rgb (r g b : Byte) : blue (from_rgb r g b) = b := by
  apply Fin.ext
  rw [blue_val, from_rgb_val]
  have hr := r.isLt
  have hg := g.isLt
  have hb := b.isLt
  omega

theorem from_rgb_lt (r g b : Byte) : (from_rgb r g b).u.val < 2 ^ 24 := by
  rw [from_rgb_val]
  have hr := r.isLt
  have hg := g.isLt
  have hb := b.isLt
  norm_num
  omega

theorem hexVal_hexChar : ∀ m : Fin 16, hexVal (hexChar m.val) = m.val := by decide

theorem hexChar_mem_alphabet : ∀ m : Fin 16, hexChar m.val ∈ hexAlphabet := by decide

theorem hexChar_ne_zero : ∀ m : Fin 16, m.val ≠ 0 → hexChar m.val ≠ '0' := by decide

theorem hexCharsAux_zero (fuel : Nat) : hexCharsAux fuel 0 = [] := by
  cases fuel
  · rfl
  · rfl

theorem hexCharsAux_step (fuel n : Nat) (hn : n ≠ 0) :
    hexCharsAux (fuel + 1) n = hexCharsAux fuel (n / 16) ++ [hexChar (n % 16)] := by
  simp [hexCharsAux, hn]

/-- Digit expansion is correct: folding the decoder over the digits of `n`
starting from accumulator `a` recovers `a` shifted past the digits, plus `n`. -/
theorem hexCharsAux_foldl : ∀ fuel n a : Nat, n ≤ fuel →
    (hexCharsAux fuel n).foldl (fun x d => 16 * x + hexVal d) a =
      a * 16 ^ (hexCharsAux fuel n).length + n := by
  intro fuel
  induction fuel with
  | zero =>
    intro n a h
    have hn : n = 0 := by omega
    subst hn
    simp [hexCharsAux]
  | succ fuel ih =>
    intro n a h
    by_cases hn : n = 0
    · subst hn
      simp [hexCharsAux]
    · rw [hexCharsAux_step fuel n hn, List.foldl_append]
      simp only [List.foldl_cons, List.foldl_nil]
      rw [ih (n / 16) a (by omega)]
      have hvc : hexVal (hexChar (n % 16)) = n % 16 := hexVal_hexChar ⟨n % 16, by omega⟩
      rw [hvc]
      simp only [List.length_append, List.length_cons, List.length_nil]
      rw [pow_succ, ← Nat.mul_assoc]
      have hqr := Nat.div_add_mod n 16
      generalize a * 16 ^ (hexCharsAux fuel (n / 16)).length = p
      omega

/-- Decoding the hexadecimal expansion of `n` gives back `n`. -/
theorem decode_hexCharsAux (n : Nat) : decodeHex (hexCharsAux n n) = n := by
  have h := hexCharsAux_foldl n n 0 (Nat.le_refl n)
  simpa [decodeHex] using h

/-- The expansion of a nonzero value is nonempty and has a nonzero
leading digit (no leading-zero padding). -/
theorem hexCharsAux_head : ∀ fuel n : Nat, n ≤ fuel → n ≠ 0 →
    ∃ d tl, hexCharsAux fuel n = d :: tl ∧ d ≠ '0' := by
  intro fuel
  induction fuel with
  | zero =>
    intro n h hn
    omega
  | succ fuel ih =>
    intro n h hn
    rw [hexCharsAux_step fuel n hn]
    by_cases hq : n / 16 = 0
    · rw [hq, hexCharsAux_zero, List.nil_append]
      refine ⟨hexChar (n % 16), [], rfl, ?_⟩
      exact hexChar_ne_zero ⟨n % 16, by omega⟩ (show n % 16 ≠ 0 by omega)
    · obtain ⟨d, tl, heq, hd⟩ := ih (n / 16) (by omega) hq
      rw [heq, List.cons_append]
      exact ⟨d, tl ++ [hexChar (n % 16)], rfl, hd⟩

/-- Every emitted digit is a lowercase hexadecimal digit character. -/
theorem hexCharsAux_subset : ∀ fuel n : Nat, hexCharsAux fuel n ⊆ hexAlphabet := by
  intro fuel
  induction fuel with
  | zero =>
    intro n
    exact List.nil_subset _
  | succ fuel ih =>
    intro n
    by_cases hn : n = 0
    · subst hn
      rw [hexCharsAux_zero]
      exact List.nil_subset _
    · rw [hexCharsAux_step fuel n hn]
      intro d hd
      rw [List.mem_append] at hd
      cases hd with
      | inl hmem => exact ih (n / 16) hmem
      | inr hmem =>
        rw [List.mem_singleton] at hmem
        subst hmem
        exact hexChar_mem_alphabet ⟨n % 16, by omega⟩

theorem display_data (c : Colour) : (display c).data = '#' :: (toHex c.u.val).data := rfl

/-! ### Claim theorems -/

/-- C1: for every triple of bytes `r`, `g`, `b`, the colour built by
`from_rgb(r, g, b)` has packed value `(r << 16) | (g << 8) | b`, and the
accessors return the components back: `red() == r`, `green() == g`,
`blue() == b`. -/
theorem claim_C1 (r g b : Byte) :
    (from_rgb r g b).u.val = r.val <<< 16 ||| g.val <<< 8 ||| b.val ∧
    red (from_rgb r g b) = r ∧
    green (from_rgb r g b) = g ∧
    blue (from_rgb r g b) = b :=
  ⟨rfl, red_from_rgb r g b, green_from_rgb r g b, blue_from_rgb r g b⟩

/-- C2: division fails fast (returns no value) exactly when the divisor's
wrapped 32-bit value is zero; for every nonzero divisor it succeeds with
the truncated unsigned quotient wrapped in a `Colour`. -/
theorem claim_C2 (a b : Colour) :
    (div a b = none ↔ b.u.val = 0) ∧
    (b.u.val ≠ 0 → ∃ q : Colour, div a b = some q ∧ q.u.val = a.u.val / b.u.val) := by
  by_cases hb : b.u.val = 0
  · refine ⟨⟨fun _ => hb, fun _ => ?_⟩, fun hne => absurd hb hne⟩
    simp [div, hb]
  · constructor
    · constructor
      · intro h
        simp [div, hb] at h
      · intro h
        exact absurd h hb
    · intro h
      refine ⟨⟨⟨a.u.val / b.u.val, Nat.lt_of_le_of_lt (Nat.div_le_self _ _) a.u.isLt⟩⟩, ?_, rfl⟩
      simp [div, hb]

/-- Witness for C2 at concrete inputs: `Colour(10) / Colour(0)` faults and
`Colour(10) / Colour(2)` yields value 5. -/
theorem claim_C2_witness :
    div (mkc 10) (mkc 0) = none ∧
    ∃ q : Colour, div (mkc 10) (mkc 2) = some q ∧ q.u.val = 5 := by
  constructor
  · exact (claim_C2 (mkc 10) (mkc 0)).1.mpr (by decide)
  · obtain ⟨q, hq, hv⟩ := (claim_C2 (mkc 10) (mkc 2)).2 (by decide)
    refine ⟨q, hq, ?_⟩
    rw [hv]
    decide

/-- C3: add, subtract and multiply act directly on the two wrapped 32-bit
values (not per channel), wrapping modulo `2 ^ 32` on overflow; e.g.
`Colour(2) + Colour(3) == Colour(5)`, addition carries across the
blue/green channel boundary, and `0xFFFFFFFF + 1` wraps to 0. -/
theorem claim_C3 (a b : Colour) :
    (add a b).u.val = (a.u.val + b.u.val) % 2 ^ 32 ∧
    (mul a b).u.val = (a.u.val * b.u.val) % 2 ^ 32 ∧
    ((sub a b).u.val : ℤ) = ((a.u.val : ℤ) - (b.u.val : ℤ)) % 2 ^ 32 ∧
    add (mkc 2) (mkc 3) = mkc 5 ∧
    add (mkc 0x0000FF) (mkc 0x000001) = mkc 0x000100 ∧
    add (mkc 4294967295) (mkc 1) = mkc 0 ∧
    mul (mkc 65536) (mkc 65536) = mkc 0 ∧
    sub (mkc 0) (mkc 1) = mkc 4294967295 := by
  refine ⟨rfl, rfl, ?_, by decide, by decide, by decide, by decide, by decide⟩
  have ha := a.u.isLt
  have hb := b.u.isLt
  show (((a.u.val + (2 ^ 32 - b.u.val)) % 2 ^ 32 : Nat) : ℤ) = _
  omega

/-- C4: each compound operator leaves its receiver equal to the result of
the corresponding binary operator (the source defines each compound form
as `*self = *self OP rhs`), e.g. `a += b` with `a = Colour(5)`,
`b = Colour(3)` equals `Colour(5) + Colour(3)`. -/
theorem claim_C4 (a b : Colour) :
    add_assign a b = add a b ∧
    sub_assign a b = sub a b ∧
    mul_assign a b = mul a b ∧
    div_assign a b = div a b ∧
    add_assign (mkc 5) (mkc 3) = add (mkc 5) (mkc 3) :=
  ⟨rfl, rfl, rfl, rfl, rfl⟩

/-- C5: converting any 32-bit value to a `Colour` and back is the
identity — lossless for all values, including those with bits above
bit 23 (e.g. `0xFF123456`). -/
theorem claim_C5 (v : U32) :
    toU32 (fromU32 v) = v ∧
    (fromU32 v).u = v ∧
    toU32 (fromU32 (mkc 0xFF123456).u) = (mkc 0xFF123456).u :=
  ⟨rfl, rfl, rfl⟩

/-- C6: the byte-tuple round-trip keeps the low 24 bits — it returns the
original colour exactly when the upper byte is zero, and otherwise drops
the upper byte, yielding `Colour(value % 2^24)` (that is,
`value & 0xFFFFFF`). -/
theorem claim_C6 (c : Colour) :
    (fromTuple (toTuple c)).u.val = c.u.val % 2 ^ 24 ∧
    (fromTuple (toTuple c) = c ↔ c.u.val < 2 ^ 24) := by
  have hval : (fromTuple (toTuple c)).u.val = c.u.val % 2 ^ 24 := by
    show (from_rgb (red c) (green c) (blue c)).u.val = _
    rw [from_rgb_val, red_val, green_val, blue_val]
    omega
  refine ⟨hval, ?_⟩
  rw [val_inj, hval]
  omega

/-- Witness for C6: the round-trip fixes `Colour(0xffffff)` (fits in 24
bits) and maps `Colour(0xFF123456)` to `Colour(0x123456)` (upper byte
dropped). -/
theorem claim_C6_witness :
    fromTuple (toTuple WHITE) = WHITE ∧
    (fromTuple (toTuple (mkc 0xFF123456))).u.val = 0x123456 := by
  constructor
  · exact (claim_C6 WHITE).2.mpr (by decide)
  · rw [(claim_C6 (mkc 0xFF123456)).1]
    decide

/-- C7: the display form is `#` followed by the minimal lowercase
hexadecimal digits of the full wrapped 32-bit value — the digit string is
nonempty, drawn from the lowercase hex alphabet, decodes back to the
value, and has no leading zero (except for the value 0, printed `#0`);
in particular `Colour(0xffffff)` prints `"#ffffff"` and `Colour(0)`
prints `"#0"`. -/
theorem claim_C7 :
    (∀ c : Colour, ∃ ds : List Char,
      (display c).data = '#' :: ds ∧
      ds ≠ [] ∧
      ds ⊆ hexAlphabet ∧
      decodeHex ds = c.u.val ∧
      (c.u.val = 0 ∨ ds.head? ≠ some '0')) ∧
    display WHITE = "#ffffff" ∧ WHITE.u.val = 0xffffff ∧
    display BLACK = "#0" ∧ BLACK.u.val = 0 := by
  refine ⟨?_, by decide, by decide, by decide, by decide⟩
  intro c
  by_cases h0 : c.u.val = 0
  · refine ⟨['0'], ?_, by simp, by decide, ?_, Or.inl h0⟩
    · rw [display_data, toHex, if_pos h0]
    · rw [h0]
      decide
  · obtain ⟨d, tl, heq, hd⟩ := hexCharsAux_head c.u.val c.u.val (Nat.le_refl _) h0
    refine ⟨hexCharsAux c.u.val c.u.val, ?_, ?_, hexCharsAux_subset _ _,
      decode_hexCharsAux _, Or.inr ?_⟩
    · rw [display_data, toHex, if_neg h0]
    · rw [heq]
      simp
    · rw [heq]
      simp [hd]

/-- Witness for C7: the general digit-string description instantiated at
the concrete colour `Colour::BLUE`. -/
theorem claim_C7_witness :
    ∃ ds : List Char,
      (display BLUE).data = '#' :: ds ∧
      ds ≠ [] ∧
      ds ⊆ hexAlphabet ∧
      decodeHex ds = BLUE.u.val ∧
      (BLUE.u.val = 0 ∨ ds.head? ≠ some '0') :=
  claim_C7.1 BLUE

/-- C8: equality of colours is exactly equality of the wrapped integers
(reflexive, symmetric, transitive), and the order relation is exactly the
numeric order on the wrapped integers (total, irreflexive, transitive);
e.g. `Colour(5) < Colour(6)`. -/
theorem claim_C8 :
    (∀ a b : Colour, a = b ↔ a.u.val = b.u.val) ∧
    (∀ a b : Colour, lt a b ↔ a.u.val < b.u.val) ∧
    (∀ a b : Colour, lt a b ∨ a = b ∨ lt b a) ∧
    (∀ a : Colour, ¬ lt a a) ∧
    (∀ a b c : Colour, lt a b → lt b c → lt a c) ∧
    lt (mkc 5) (mkc 6) ∧
    (∀ a : Colour, a = a) ∧
    (∀ a b : Colour, a = b → b = a) ∧
    (∀ a b c : Colour, a = b → b = c → a = c) := by
  refine ⟨fun a b => val_inj, fun a b => Iff.rfl, ?_, ?_, ?_, by decide,
    fun a => rfl, fun a b h => h.symm, fun a b c h1 h2 => h1.trans h2⟩
  · intro a b
    rcases Nat.lt_trichotomy a.u.val b.u.val with h | h | h
    · exact Or.inl h
    · exact Or.inr (Or.inl (val_inj.mpr h))
    · exact Or.inr (Or.inr h)
  · intro a
    exact Nat.lt_irrefl _
  · intro a b c h1 h2
    exact Nat.lt_trans h1 h2

/-- Witness for C8: the order and equality laws discharged at concrete
colours — transitivity through `Colour(4) < Colour(5) < Colour(6)`, and
symmetry/transitivity of equality at `Colour(3)`. -/
theorem claim_C8_witness :
    lt (mkc 4) (mkc 6) ∧ mkc 3 = mkc 3 ∧ mkc 7 = mkc 7 := by
  refine ⟨?_, ?_, ?_⟩
  · exact claim_C8.2.2.2.2.1 (mkc 4) (mkc 5) (mkc 6) (by decide) (by decide)
  · exact claim_C8.2.2.2.2.2.2.2.1 (mkc 3) (mkc 3) rfl
  · exact claim_C8.2.2.2.2.2.2.2.2 (mkc 7) (mkc 7) (mkc 7) rfl rfl

/-- C9: the palette constants carry the spec's literal packed values —
`from_rgb(254, 231, 92) == Colour::YELLOW` with value `0xFEE75C`,
`Colour::BLUE` converts to the byte tuple `(52, 152, 219)` — and the
default colour wraps `0x000000`. -/
theorem claim_C9 :
    from_rgb (mkb 254) (mkb 231) (mkb 92) = YELLOW ∧
    YELLOW.u.val = 0xFEE75C ∧
    toTuple BLUE = (mkb 52, mkb 152, mkb 219) ∧
    defaultColour.u.val = 0 :=
  ⟨by decide, by decide, by decide, by decide⟩

/-- C10: every `from_rgb` (equivalently, byte-tuple) construction has the
upper byte zero — the packed value is below `2^24` — and therefore
round-trips through the tuple conversion losslessly. -/
theorem claim_C10 (r g b : Byte) :
    (from_rgb r g b).u.val < 2 ^ 24 ∧
    fromTuple (toTuple (from_rgb r g b)) = from_rgb r g b ∧
    ∀ t : Byte × Byte × Byte,
      (fromTuple t).u.val < 2 ^ 24 ∧ fromTuple (toTuple (fromTuple t)) = fromTuple t := by
  refine ⟨from_rgb_lt r g b, ?_, ?_⟩
  · show from_rgb (red _) (green _) (blue _) = _
    rw [red_from_rgb, green_from_rgb, blue_from_rgb]
  · intro t
    refine ⟨from_rgb_lt t.1 t.2.1 t.2.2, ?_⟩
    show from_rgb (red (from_rgb t.1 t.2.1 t.2.2)) (green (from_rgb t.1 t.2.1 t.2.2))
        (blue (from_rgb t.1 t.2.1 t.2.2)) = from_rgb t.1 t.2.1 t.2.2
    rw [red_from_rgb, green_from_rgb, blue_from_rgb]

end Colour
